import Mathlib

/-!
Verification of the video-transcode pipeline in `src/main.c`.

The development shallowly embeds the program:
* `av_rescale_rnd` / `av_rescale_q` model FFmpeg's timestamp rescaling with
  rounding to nearest, ties away from zero (`AV_ROUND_NEAR_INF`), which is the
  rounding mode `av_rescale_q` uses; C `/` on `int64_t` is `Int.tdiv`.
* `Frame` models an `AVFrame` with a packed byte buffer `data : Int → Nat`
  addressed by flat offset into `data[0]`, together with `width`, `height`,
  `linesize` and `pts`.
* `add_progress_bar` is the overlay renderer (main.c lines 9-21).  The C code
  divides by `total_frames` with no guard; division by zero is undefined
  behavior (SIGFPE), modelled as `none`.  Otherwise the nested loops emit the
  byte writes `barWrites` in program order and `applyWrites` folds them over
  the buffer (last write wins, as in memory).
* `process_packet` / `process_frame` / `run_transcode` model the transcode
  loop (main.c lines 132-182) over oracle inputs: each demuxed packet carries
  its stream index and the decoder's response to it, each decoded frame
  carries the encoder's response.  The traces in `LoopState` record the
  observable events: packets read, `av_packet_unref` calls, overlay calls,
  `avcodec_send_frame` submissions and interleaved writes.
-/

/-- FFmpeg `AVRational`: a time base `num/den`. -/
structure AVRational where
  num : Int
  den : Int
deriving DecidableEq

/-- FFmpeg `av_rescale_rnd(a, b, c, AV_ROUND_NEAR_INF)`: computes `a * b / c`
rounded to the nearest integer, ties away from zero, exactly as the C source
does it: `(a * b + c/2) / c` with the sign of `a` factored out first. -/
def av_rescale_rnd (a b c : Int) : Int :=
  if a < 0 then -(Int.tdiv ((-a) * b + Int.tdiv c 2) c)
  else Int.tdiv (a * b + Int.tdiv c 2) c

/-- FFmpeg `av_rescale_q(a, bq, cq)`: rescale timestamp `a` from time base
`bq` to time base `cq`, i.e. `av_rescale_rnd(a, bq.num * cq.den, cq.num * bq.den)`. -/
def av_rescale_q (a : Int) (bq cq : AVRational) : Int :=
  av_rescale_rnd a (bq.num * cq.den) (cq.num * bq.den)

/-- main.c line 113: `encoder_context->time_base = (AVRational){1, 30};` -/
def encoder_time_base : AVRational := ⟨1, 30⟩

/-- An `AVFrame` as the overlay renderer sees it: packed 3-bytes-per-pixel
buffer `data[0]`, addressed by flat byte offset. -/
structure Frame where
  width : Int
  height : Int
  linesize : Int
  data : Int → Nat
  pts : Int

/-- One byte store `d[a] = v`. -/
def setByte (d : Int → Nat) (a : Int) (v : Nat) : Int → Nat :=
  fun x => if x = a then v else d x

/-- Apply a list of byte stores in order (later stores win, as in memory). -/
def applyWrites (d : Int → Nat) (ws : List (Int × Nat)) : Int → Nat :=
  ws.foldl (fun dd w => setByte dd w.1 w.2) d

/-- The byte stores of `add_progress_bar`'s nested loops, in program order:
for each of the 10 rows `i = y + k` (k = 0..9), for each column `j` below the
bar width, store 255/0/0 at offsets `i * linesize + 3*j + {0,1,2}`
(main.c lines 14-20). -/
def barWrites (L y : Int) (bw : Nat) : List (Int × Nat) :=
  (List.range 10).flatMap fun k =>
    (List.range bw).flatMap fun j =>
      [((y + (k : Int)) * L + 3 * (j : Int), 255),
       ((y + (k : Int)) * L + 3 * (j : Int) + 1, 0),
       ((y + (k : Int)) * L + 3 * (j : Int) + 2, 0)]

/-- main.c lines 9-21.  `bar_width = (frame->width * frame_number) / total_frames`
is C truncated division and faults (undefined behavior) when
`total_frames == 0`, modelled by `none`; the loop `for (j = 0; j < bar_width; ...)`
runs `bar_width.toNat` times. -/
def add_progress_bar (frame : Frame) (frame_number total_frames : Int) : Option Frame :=
  if total_frames = 0 then none
  else
    let bar_width := Int.tdiv (frame.width * frame_number) total_frames
    let y := frame.height - 10
    some { frame with data := applyWrites frame.data (barWrites frame.linesize y bar_width.toNat) }

/-! ### Generic lemmas about `applyWrites` -/

theorem applyWrites_cons (d : Int → Nat) (w : Int × Nat) (ws : List (Int × Nat)) :
    applyWrites d (w :: ws) = applyWrites (setByte d w.1 w.2) ws := rfl

theorem applyWrites_eq_of_not_mem (ws : List (Int × Nat)) (d : Int → Nat) (a : Int)
    (h : ∀ w ∈ ws, w.1 ≠ a) : applyWrites d ws a = d a := by
  induction ws generalizing d with
  | nil => rfl
  | cons w ws ih =>
    rw [applyWrites_cons, ih _ (fun w' hw' => h w' (List.mem_cons_of_mem _ hw'))]
    simp only [setByte]
    rw [if_neg (fun hax => h w (List.mem_cons_self _ _) hax.symm)]

theorem applyWrites_eq_of_mem (ws : List (Int × Nat)) (d : Int → Nat) (a : Int) (v : Nat)
    (hmem : (a, v) ∈ ws) (huniq : ∀ w ∈ ws, w.1 = a → w.2 = v) :
    applyWrites d ws a = v := by
  induction ws generalizing d with
  | nil => cases hmem
  | cons w ws ih =>
    by_cases hrest : ∃ w' ∈ ws, w'.1 = a
    · obtain ⟨w', hw', ha⟩ := hrest
      have hv : w'.2 = v := huniq w' (List.mem_cons_of_mem _ hw') ha
      have hw'' : (a, v) ∈ ws := by
        have : w' = (a, v) := by
          cases w'
          simp only at ha hv
          rw [ha, hv]
        rwa [this] at hw'
      exact ih _ hw'' (fun u hu h => huniq u (List.mem_cons_of_mem _ hu) h)
    · push_neg at hrest
      rcases List.mem_cons.1 hmem with heq | hin
      · rw [applyWrites_cons, applyWrites_eq_of_not_mem _ _ _ hrest, ← heq]
        simp [setByte]
      · exact absurd rfl (hrest (a, v) hin)

/-! ### The transcode loop (main.c lines 132-182)

The demuxer, decoder and encoder are external collaborators; a run is driven
by oracle data: each input packet records the decoder's response to
`avcodec_send_packet` / the subsequent `avcodec_receive_frame` drain, and each
decoded frame records the encoder's response to `avcodec_send_frame` /
`avcodec_receive_packet`. -/

/-- A packet produced by `avcodec_receive_packet`: its timestamp in the
encoder's time base, and whether the subsequent `av_interleaved_write_frame`
would succeed (the C code ignores that result). -/
structure EncPkt where
  pts : Int
  writeOk : Bool
deriving DecidableEq

/-- A frame yielded by `avcodec_receive_frame`: the decoded buffer and, as
oracle data, whether `avcodec_send_frame` succeeds and what
`avcodec_receive_packet` returns. -/
structure FrameIn where
  frame : Frame
  sendOk : Bool
  encPkt : Option EncPkt

/-- A packet returned by `av_read_frame`: its stream index and the decoder's
behavior on it (`none`: `avcodec_send_packet` fails; `some fs`: submission
succeeds and the `avcodec_receive_frame` drain yields the frames `fs`). -/
structure PacketIn where
  stream_index : Int
  decode : Option (List FrameIn)

/-- Observable state and event traces of the transcode loop.
`inUnrefs` records the 0-based indices of demuxed packets passed to
`av_packet_unref` (line 169); `outUnrefs` counts `av_packet_unref(&out_packet)`
calls (line 165); `overlayArgs` records each completed `add_progress_bar` call's
`(frame_count, total_frames)` arguments; `encSubmits` records each
`avcodec_send_frame` call as (pts the decoder delivered, pts submitted);
`writes` records each `av_interleaved_write_frame` call as
(stream index, rescaled timestamp, write success).  `outerBroke` is the
line-142 `break` out of the read loop; `faulted` is the division-by-zero
crash inside `add_progress_bar`. -/
structure LoopState where
  frame_count : Nat
  packetsRead : Nat
  inUnrefs : List Nat
  outUnrefs : Nat
  overlayArgs : List (Nat × Int)
  encSubmits : List (Int × Int)
  writes : List (Int × Int × Bool)
  innerBroke : Bool
  outerBroke : Bool
  faulted : Bool

/-- `frame_count = 0` and empty traces at loop entry (main.c lines 132-136). -/
def init_state : LoopState :=
  ⟨0, 0, [], 0, [], [], [], false, false, false⟩

/-- One iteration of the inner drain loop (main.c lines 145-167): overlay the
frame at the current `frame_count`, increment the counter, rescale the pts
from the input time base to the encoder time base, submit to the encoder
(`break` on failure), then drain at most one encoder packet, rescale its
timestamps to the output time base, write it and release it. -/
def process_frame (tbIn tbOut : AVRational) (outIdx : Int) (total_frames : Int)
    (s : LoopState) (f : FrameIn) : LoopState :=
  if s.innerBroke || s.faulted then s
  else
    match add_progress_bar f.frame (Int.ofNat s.frame_count) total_frames with
    | none => { s with faulted := true }
    | some _ =>
      let s1 : LoopState :=
        { s with overlayArgs := s.overlayArgs ++ [(s.frame_count, total_frames)],
                 frame_count := s.frame_count + 1 }
      let pts := av_rescale_q f.frame.pts tbIn encoder_time_base
      let s2 : LoopState := { s1 with encSubmits := s1.encSubmits ++ [(f.frame.pts, pts)] }
      if !f.sendOk then { s2 with innerBroke := true }
      else
        match f.encPkt with
        | none => s2
        | some q =>
          { s2 with
              writes := s2.writes ++ [(outIdx, av_rescale_q q.pts encoder_time_base tbOut, q.writeOk)],
              outUnrefs := s2.outUnrefs + 1 }

/-- One iteration of the outer read loop (main.c lines 138-170).  A failing
`avcodec_send_packet` executes `break` (line 142), which leaves the *outer*
`while` loop and skips the `av_packet_unref` at line 169; packets of other
streams are released without processing. -/
def process_packet (tbIn tbOut : AVRational) (vidIdx outIdx : Int) (total_frames : Int)
    (s : LoopState) (p : PacketIn) : LoopState :=
  if s.outerBroke || s.faulted then s
  else
    let idx := s.packetsRead
    let s0 : LoopState := { s with packetsRead := s.packetsRead + 1 }
    if p.stream_index = vidIdx then
      match p.decode with
      | none => { s0 with outerBroke := true }
      | some frames =>
        let s1 := frames.foldl (process_frame tbIn tbOut outIdx total_frames)
                    { s0 with innerBroke := false }
        if s1.faulted then s1
        else { s1 with inUnrefs := s1.inUnrefs ++ [idx] }
    else { s0 with inUnrefs := s0.inUnrefs ++ [idx] }

/-- Result of `main` after a successful setup: the loop's final state, whether
`av_write_trailer` (line 172) executed, and the process exit code (`none` when
the process crashed inside the loop). -/
structure MainResult where
  final : LoopState
  trailerWritten : Bool
  exitCode : Option Int

/-- The whole transcode phase of `main` (lines 138-182): fold the read loop
over the demuxed packets, then write the trailer and return 0 — unless the
run crashed on the unguarded division in `add_progress_bar`. -/
def run_transcode (tbIn tbOut : AVRational) (vidIdx outIdx : Int) (total_frames : Int)
    (packets : List PacketIn) : MainResult :=
  let s := packets.foldl (process_packet tbIn tbOut vidIdx outIdx total_frames) init_state
  if s.faulted then ⟨s, false, none⟩ else ⟨s, true, some 0⟩

/-! ### Arithmetic of `av_rescale_rnd` -/

theorem rescale_div_near (N c : Int) (hN : 0 ≤ N) (hc : 0 < c) :
    2 * |Int.tdiv (N + Int.tdiv c 2) c * c - N| ≤ c := by
  have hd : Int.tdiv c 2 = c / 2 := Int.tdiv_eq_ediv hc.le (by norm_num)
  have hd0 : 0 ≤ c / 2 := Int.ediv_nonneg hc.le (by norm_num)
  have hnum : 0 ≤ N + c / 2 := by linarith
  rw [hd, Int.tdiv_eq_ediv hnum hc.le]
  have e2 : c * ((N + c / 2) / c) + (N + c / 2) % c = N + c / 2 :=
    Int.ediv_add_emod _ _
  have m2lo : 0 ≤ (N + c / 2) % c := Int.emod_nonneg _ hc.ne'
  have m2hi : (N + c / 2) % c < c := Int.emod_lt_of_pos _ hc
  have e1 : 2 * (c / 2) + c % 2 = c := Int.ediv_add_emod c 2
  have m1lo : 0 ≤ c % 2 := Int.emod_nonneg _ (by norm_num)
  have m1hi : c % 2 < 2 := Int.emod_lt_of_pos _ (by norm_num)
  have key : (N + c / 2) / c * c - N = c / 2 - (N + c / 2) % c := by
    have hcomm : (N + c / 2) / c * c = c * ((N + c / 2) / c) := mul_comm _ _
    linarith
  rw [key]
  rcases abs_cases (c / 2 - (N + c / 2) % c) with ⟨habs, _⟩ | ⟨habs, _⟩ <;> rw [habs] <;> linarith

theorem av_rescale_rnd_near (a b c : Int) (hb : 0 ≤ b) (hc : 0 < c) :
    2 * |av_rescale_rnd a b c * c - a * b| ≤ c := by
  unfold av_rescale_rnd
  split
  · next h =>
    have hN : 0 ≤ (-a) * b := mul_nonneg (by linarith) hb
    have hmain := rescale_div_near ((-a) * b) c hN hc
    have heq : -(Int.tdiv ((-a) * b + Int.tdiv c 2) c) * c - a * b
        = -(Int.tdiv ((-a) * b + Int.tdiv c 2) c * c - (-a) * b) := by ring
    rw [heq, abs_neg]
    exact hmain
  · next h =>
    exact rescale_div_near (a * b) c (mul_nonneg (by linarith) hb) hc

theorem av_rescale_rnd_roundtrip (a p q : Int) (hq : 0 < q) (hpq : q ≤ p) :
    |av_rescale_rnd (av_rescale_rnd a p q) q p - a| ≤ 1 := by
  have hp : 0 < p := lt_of_lt_of_le hq hpq
  have h1 : 2 * |av_rescale_rnd a p q * q - a * p| ≤ q :=
    av_rescale_rnd_near a p q hp.le hq
  have h2 : 2 * |av_rescale_rnd (av_rescale_rnd a p q) q p * p - av_rescale_rnd a p q * q| ≤ p :=
    av_rescale_rnd_near (av_rescale_rnd a p q) q p hq.le hp
  have h3 : |av_rescale_rnd (av_rescale_rnd a p q) q p * p - a * p|
      ≤ |av_rescale_rnd (av_rescale_rnd a p q) q p * p - av_rescale_rnd a p q * q|
        + |av_rescale_rnd a p q * q - a * p| :=
    abs_sub_le _ _ _
  have h4 : |av_rescale_rnd (av_rescale_rnd a p q) q p - a| * p ≤ 1 * p := by
    have habs : |av_rescale_rnd (av_rescale_rnd a p q) q p - a| * p
        = |av_rescale_rnd (av_rescale_rnd a p q) q p * p - a * p| := by
      rw [← abs_of_pos hp, ← abs_mul, sub_mul, abs_of_pos hp]
    rw [habs, one_mul]
    linarith
  exact le_of_mul_le_mul_right h4 hp

/-! ### Geometry of the overlay's write set -/

theorem mem_barWrites_iff {L y : Int} {bw : Nat} {w : Int × Nat} :
    w ∈ barWrites L y bw ↔ ∃ k : Nat, k < 10 ∧ ∃ j : Nat, j < bw ∧
      (w = ((y + (k : Int)) * L + 3 * (j : Int), 255) ∨
       w = ((y + (k : Int)) * L + 3 * (j : Int) + 1, 0) ∨
       w = ((y + (k : Int)) * L + 3 * (j : Int) + 2, 0)) := by
  simp [barWrites, List.mem_flatMap, List.mem_range]

theorem barWrites_addr_lower {L y : Int} {bw : Nat} (hL : 0 ≤ L)
    (w : Int × Nat) (hw : w ∈ barWrites L y bw) : y * L ≤ w.1 := by
  rcases mem_barWrites_iff.1 hw with ⟨k, _, j, _, hcase⟩
  have hkL : 0 ≤ (k : Int) * L := mul_nonneg (Int.ofNat_nonneg k) hL
  have hj0 : 0 ≤ 3 * (j : Int) := by positivity
  rcases hcase with h | h | h <;> rw [h] <;> simp only <;> nlinarith

theorem applyWrites_barWrites_lower {L y : Int} {bw : Nat} (hL : 0 ≤ L)
    (d : Int → Nat) (a : Int) (ha : a < y * L) :
    applyWrites d (barWrites L y bw) a = d a :=
  applyWrites_eq_of_not_mem _ _ _ (fun w hw heq =>
    absurd (heq ▸ barWrites_addr_lower hL w hw) (not_le.2 ha))

theorem eq_zero_of_mul_bounded {D L R : Int} (hL : 0 < L) (h : D * L = R)
    (hlo : -L < R) (hhi : R < L) : D = 0 := by
  rcases lt_trichotomy D 0 with hD | hD | hD
  · exfalso
    have h1 : D ≤ -1 := by omega
    have h2 : D * L ≤ (-1) * L := mul_le_mul_of_nonneg_right h1 hL.le
    have h3 : (-1 : Int) * L = -L := by ring
    linarith
  · exact hD
  · exfalso
    have h1 : 1 ≤ D := hD
    have h2 : 1 * L ≤ D * L := mul_le_mul_of_nonneg_right h1 hL.le
    linarith

theorem bar_addr_inj {L y : Int} {bw : Nat} (h3 : 3 * (bw : Int) ≤ L) (hL : 0 < L)
    {k j k' j' : Nat} {c c' : Int} (hj : j < bw) (hj' : j' < bw)
    (hc : 0 ≤ c) (hc3 : c < 3) (hc' : 0 ≤ c') (hc3' : c' < 3)
    (heq : (y + (k' : Int)) * L + 3 * (j' : Int) + c' = (y + (k : Int)) * L + 3 * (j : Int) + c) :
    k' = k ∧ (j' : Int) = (j : Int) ∧ c' = c := by
  have hD : ((k' : Int) - (k : Int)) * L = (3 * (j : Int) + c) - (3 * (j' : Int) + c') := by
    ring_nf
    ring_nf at heq
    linarith
  have hjc : (j : Int) + 1 ≤ (bw : Int) := by exact_mod_cast hj
  have hjc' : (j' : Int) + 1 ≤ (bw : Int) := by exact_mod_cast hj'
  have hb : 3 * (j : Int) + c < L := by linarith
  have hb' : 3 * (j' : Int) + c' < L := by linarith
  have h0 : 0 ≤ 3 * (j : Int) + c := by positivity
  have h0' : 0 ≤ 3 * (j' : Int) + c' := by positivity
  have hD0 : (k' : Int) - (k : Int) = 0 :=
    eq_zero_of_mul_bounded hL hD (by linarith) (by linarith)
  have hkk : k' = k := by
    have : (k' : Int) = (k : Int) := by linarith
    exact_mod_cast this
  have hrest : 3 * (j : Int) + c = 3 * (j' : Int) + c' := by
    have := hD
    rw [hD0] at this
    simp at this
    linarith
  refine ⟨hkk, ?_, ?_⟩ <;> omega

theorem barWrites_value (L y : Int) (bw : Nat) (h3 : 3 * (bw : Int) ≤ L)
    (d : Int → Nat) (k j c : Nat) (hk : k < 10) (hj : j < bw) (hc : c < 3) :
    applyWrites d (barWrites L y bw) ((y + (k : Int)) * L + 3 * (j : Int) + (c : Int))
      = if c = 0 then 255 else 0 := by
  have hbw : 0 < bw := lt_of_le_of_lt (Nat.zero_le j) hj
  have hbwI : (1 : Int) ≤ (bw : Int) := by exact_mod_cast hbw
  have hL : 0 < L := by linarith
  apply applyWrites_eq_of_mem
  · refine mem_barWrites_iff.2 ⟨k, hk, j, hj, ?_⟩
    interval_cases c <;> simp
  · rintro w hw heq
    rcases mem_barWrites_iff.1 hw with ⟨k2, _, j2, hj2, hcase⟩
    have hcI : (0 : Int) ≤ (c : Int) := Int.ofNat_nonneg c
    have hcI3 : ((c : Nat) : Int) < 3 := by exact_mod_cast hc
    rcases hcase with h | h | h
    · rw [h] at heq ⊢
      simp only at heq ⊢
      have heq' : (y + (k2 : Int)) * L + 3 * (j2 : Int) + 0
          = (y + (k : Int)) * L + 3 * (j : Int) + (c : Int) := by linarith
      obtain ⟨-, -, hcc⟩ :=
        bar_addr_inj h3 hL hj hj2 hcI hcI3 (by norm_num) (by norm_num) heq'
      have : c = 0 := by omega
      rw [this]
      rfl
    · rw [h] at heq ⊢
      simp only at heq ⊢
      have heq' : (y + (k2 : Int)) * L + 3 * (j2 : Int) + 1
          = (y + (k : Int)) * L + 3 * (j : Int) + (c : Int) := by linarith
      obtain ⟨-, -, hcc⟩ :=
        bar_addr_inj h3 hL hj hj2 hcI hcI3 (by norm_num) (by norm_num) heq'
      have : c = 1 := by omega
      rw [this]
      rfl
    · rw [h] at heq ⊢
      simp only at heq ⊢
      have heq' : (y + (k2 : Int)) * L + 3 * (j2 : Int) + 2
          = (y + (k : Int)) * L + 3 * (j : Int) + (c : Int) := by linarith
      obtain ⟨-, -, hcc⟩ :=
        bar_addr_inj h3 hL hj hj2 hcI hcI3 (by norm_num) (by norm_num) heq'
      have : c = 2 := by omega
      rw [this]
      rfl

/-! ### Invariants of the transcode loop -/

theorem foldl_preserve {α σ : Type} (g : σ → α → σ) (P : σ → Prop)
    (hstep : ∀ s x, P s → P (g s x)) : ∀ (l : List α) (s : σ), P s → P (l.foldl g s) := by
  intro l
  induction l with
  | nil => intro s h; exact h
  | cons x xs ih => intro s h; exact ih _ (hstep s x h)

theorem add_progress_bar_ne_none (frame : Frame) (fn total : Int) (h : total ≠ 0) :
    add_progress_bar frame fn total ≠ none := by
  simp [add_progress_bar, h]

theorem process_frame_const (tbIn tbOut : AVRational) (outIdx total : Int)
    (s : LoopState) (f : FrameIn) :
    (process_frame tbIn tbOut outIdx total s f).packetsRead = s.packetsRead
    ∧ (process_frame tbIn tbOut outIdx total s f).inUnrefs = s.inUnrefs
    ∧ (process_frame tbIn tbOut outIdx total s f).outerBroke = s.outerBroke := by
  simp only [process_frame]
  split
  · exact ⟨rfl, rfl, rfl⟩
  · split
    · exact ⟨rfl, rfl, rfl⟩
    · split
      · exact ⟨rfl, rfl, rfl⟩
      · split
        · exact ⟨rfl, rfl, rfl⟩
        · exact ⟨rfl, rfl, rfl⟩

theorem process_frame_fault (tbIn tbOut : AVRational) (outIdx total : Int)
    (htotal : total ≠ 0) (s : LoopState) (f : FrameIn) :
    (process_frame tbIn tbOut outIdx total s f).faulted = s.faulted := by
  simp only [process_frame]
  split
  · rfl
  · split
    · next heq => exact absurd heq (add_progress_bar_ne_none _ _ _ htotal)
    · split
      · rfl
      · split
        · rfl
        · rfl

theorem process_frame_mono (tbIn tbOut : AVRational) (outIdx total : Int)
    (s : LoopState) (f : FrameIn) :
    s.frame_count ≤ (process_frame tbIn tbOut outIdx total s f).frame_count := by
  simp only [process_frame]
  split
  · exact le_refl _
  · split
    · exact le_refl _
    · split
      · exact Nat.le_succ _
      · split
        · exact Nat.le_succ _
        · exact Nat.le_succ _

/-- The trace invariants of the loop that hold unconditionally: the overlay
calls record exactly the successive counter values 0, 1, 2, ...; each written
encoder packet was released right after its write; every `avcodec_send_frame`
submission carries the pts rescaled from the input time base to the (constant)
encoder time base; every written packet is tagged with the output stream index
and carries a timestamp rescaled from the encoder time base to the output
stream time base. -/
def TraceInv (tbIn tbOut : AVRational) (outIdx : Int) (s : LoopState) : Prop :=
  s.overlayArgs.map Prod.fst = List.range s.frame_count
  ∧ s.outUnrefs = s.writes.length
  ∧ (∀ pr ∈ s.encSubmits, pr.2 = av_rescale_q pr.1 tbIn encoder_time_base)
  ∧ ∀ w ∈ s.writes, w.1 = outIdx ∧ ∃ q, w.2.1 = av_rescale_q q encoder_time_base tbOut

theorem process_frame_trace (tbIn tbOut : AVRational) (outIdx total : Int)
    (s : LoopState) (f : FrameIn) (h : TraceInv tbIn tbOut outIdx s) :
    TraceInv tbIn tbOut outIdx (process_frame tbIn tbOut outIdx total s f) := by
  obtain ⟨h1, h2, h3, h4⟩ := h
  simp only [process_frame]
  split
  · exact ⟨h1, h2, h3, h4⟩
  · split
    · exact ⟨h1, h2, h3, h4⟩
    · have henc : ∀ pr ∈ s.encSubmits ++
          [(f.frame.pts, av_rescale_q f.frame.pts tbIn encoder_time_base)],
          pr.2 = av_rescale_q pr.1 tbIn encoder_time_base := by
        intro pr hpr
        rcases List.mem_append.1 hpr with hin | hin
        · exact h3 pr hin
        · simp only [List.mem_singleton] at hin
          rw [hin]
      have hov : (s.overlayArgs ++ [(s.frame_count, total)]).map Prod.fst
          = List.range (s.frame_count + 1) := by
        rw [List.map_append, h1, List.range_succ]
        rfl
      split
      · exact ⟨hov, h2, henc, h4⟩
      · split
        · exact ⟨hov, h2, henc, h4⟩
        · rename_i q hq
          refine ⟨hov, ?_, henc, ?_⟩
          · simp only [List.length_append, List.length_singleton, h2]
          · intro w hw
            rcases List.mem_append.1 hw with hin | hin
            · exact h4 w hin
            · simp only [List.mem_singleton] at hin
              rw [hin]
              exact ⟨rfl, q.pts, rfl⟩

theorem process_packet_trace (tbIn tbOut : AVRational) (vidIdx outIdx total : Int)
    (s : LoopState) (p : PacketIn) (h : TraceInv tbIn tbOut outIdx s) :
    TraceInv tbIn tbOut outIdx (process_packet tbIn tbOut vidIdx outIdx total s p) := by
  simp only [process_packet]
  split
  · exact h
  · split
    · split
      · exact h
      · rename_i frames heq
        have hfold : TraceInv tbIn tbOut outIdx
            (List.foldl (process_frame tbIn tbOut outIdx total)
              { s with packetsRead := s.packetsRead + 1, innerBroke := false } frames) :=
          foldl_preserve _ _ (fun s' x hx => process_frame_trace tbIn tbOut outIdx total s' x hx)
            frames _ h
        split
        · exact hfold
        · exact hfold
    · exact h

theorem run_transcode_final (tbIn tbOut : AVRational) (vidIdx outIdx total : Int)
    (packets : List PacketIn) :
    (run_transcode tbIn tbOut vidIdx outIdx total packets).final
      = packets.foldl (process_packet tbIn tbOut vidIdx outIdx total) init_state := by
  simp only [run_transcode]
  split
  · rfl
  · rfl

theorem run_transcode_trace (tbIn tbOut : AVRational) (vidIdx outIdx total : Int)
    (packets : List PacketIn) :
    TraceInv tbIn tbOut outIdx (run_transcode tbIn tbOut vidIdx outIdx total packets).final := by
  rw [run_transcode_final]
  refine foldl_preserve _ _
    (fun s p h => process_packet_trace tbIn tbOut vidIdx outIdx total s p h)
    packets init_state ⟨rfl, rfl, ?_, ?_⟩ <;> simp [init_state]

theorem foldl_process_frame_const (tbIn tbOut : AVRational) (outIdx total : Int)
    (fs : List FrameIn) (s : LoopState) :
    ((fs.foldl (process_frame tbIn tbOut outIdx total) s).packetsRead = s.packetsRead
    ∧ (fs.foldl (process_frame tbIn tbOut outIdx total) s).inUnrefs = s.inUnrefs
    ∧ (fs.foldl (process_frame tbIn tbOut outIdx total) s).outerBroke = s.outerBroke) :=
  foldl_preserve _
    (fun s' => s'.packetsRead = s.packetsRead ∧ s'.inUnrefs = s.inUnrefs
      ∧ s'.outerBroke = s.outerBroke)
    (fun s' x hx => by
      obtain ⟨h1, h2, h3⟩ := hx
      obtain ⟨g1, g2, g3⟩ := process_frame_const tbIn tbOut outIdx total s' x
      exact ⟨g1.trans h1, g2.trans h2, g3.trans h3⟩)
    fs s ⟨rfl, rfl, rfl⟩

theorem foldl_process_frame_fault (tbIn tbOut : AVRational) (outIdx total : Int)
    (htotal : total ≠ 0) (fs : List FrameIn) (s : LoopState) :
    (fs.foldl (process_frame tbIn tbOut outIdx total) s).faulted = s.faulted :=
  foldl_preserve _ (fun s' => s'.faulted = s.faulted)
    (fun s' x hx => (process_frame_fault tbIn tbOut outIdx total htotal s' x).trans hx)
    fs s rfl

/-- Release accounting for demuxed packets: as long as the run has not
crashed, the packets released so far are exactly those read — except that a
run stopped by the line-142 `break` has not released the packet it stopped
on. -/
def UnrefInv (s : LoopState) : Prop :=
  s.faulted = false
  ∧ s.inUnrefs = List.range (s.packetsRead - cond s.outerBroke 1 0)

theorem process_packet_unref (tbIn tbOut : AVRational) (vidIdx outIdx total : Int)
    (htotal : total ≠ 0) (s : LoopState) (p : PacketIn) (h : UnrefInv s) :
    UnrefInv (process_packet tbIn tbOut vidIdx outIdx total s p) := by
  obtain ⟨hf, hu⟩ := h
  simp only [process_packet]
  split
  · exact ⟨hf, hu⟩
  · next hguard =>
    have hob : s.outerBroke = false := by
      cases hSO : s.outerBroke
      · rfl
      · rw [hSO] at hguard; simp at hguard
    rw [hob] at hu
    simp only [cond_false, Nat.sub_zero] at hu
    split
    · split
      · exact ⟨hf, by simp [hu]⟩
      · rename_i frames heq
        obtain ⟨g1, g2, g3⟩ := foldl_process_frame_const tbIn tbOut outIdx total frames
          { s with packetsRead := s.packetsRead + 1, innerBroke := false }
        have gf := foldl_process_frame_fault tbIn tbOut outIdx total htotal frames
          { s with packetsRead := s.packetsRead + 1, innerBroke := false }
        split
        · next hfault =>
          rw [gf] at hfault
          exact absurd (hf ▸ hfault) (by simp)
        · refine ⟨by rw [gf]; exact hf, ?_⟩
          simp only [g1, g2, g3]
          simp only [hob, hu, cond_false, Nat.sub_zero]
          exact (List.range_succ _).symm
    · exact ⟨hf, by simp [hu, hob, List.range_succ]⟩

theorem process_packet_fault (tbIn tbOut : AVRational) (vidIdx outIdx total : Int)
    (htotal : total ≠ 0) (s : LoopState) (p : PacketIn) :
    (process_packet tbIn tbOut vidIdx outIdx total s p).faulted = s.faulted := by
  simp only [process_packet]
  split
  · rfl
  · split
    · split
      · rfl
      · rename_i frames heq
        have gf := foldl_process_frame_fault tbIn tbOut outIdx total htotal frames
          { s with packetsRead := s.packetsRead + 1, innerBroke := false }
        split
        · exact gf
        · exact gf
    · rfl

theorem process_packet_mono (tbIn tbOut : AVRational) (vidIdx outIdx total : Int)
    (s : LoopState) (p : PacketIn) :
    s.frame_count ≤ (process_packet tbIn tbOut vidIdx outIdx total s p).frame_count := by
  simp only [process_packet]
  split
  · exact le_refl _
  · split
    · split
      · exact le_refl _
      · rename_i frames heq
        have hfold : ∀ (fs : List FrameIn) (s' : LoopState),
            s'.frame_count ≤ (fs.foldl (process_frame tbIn tbOut outIdx total) s').frame_count := by
          intro fs
          induction fs with
          | nil => intro s'; exact le_refl _
          | cons x xs ih =>
            intro s'
            exact le_trans (process_frame_mono tbIn tbOut outIdx total s' x) (ih _)
        split
        · exact hfold frames { s with packetsRead := s.packetsRead + 1, innerBroke := false }
        · exact hfold frames { s with packetsRead := s.packetsRead + 1, innerBroke := false }
    · exact le_refl _

theorem process_packet_broke_id (tbIn tbOut : AVRational) (vidIdx outIdx total : Int)
    (s : LoopState) (p : PacketIn) (h : s.outerBroke = true) :
    process_packet tbIn tbOut vidIdx outIdx total s p = s := by
  simp [process_packet, h]

theorem foldl_process_packet_broke_id (tbIn tbOut : AVRational) (vidIdx outIdx total : Int)
    (l : List PacketIn) (s : LoopState) (h : s.outerBroke = true) :
    l.foldl (process_packet tbIn tbOut vidIdx outIdx total) s = s := by
  induction l with
  | nil => rfl
  | cons p ps ih =>
    simp only [List.foldl_cons, process_packet_broke_id tbIn tbOut vidIdx outIdx total s p h]
    exact ih

theorem process_packet_nofail (tbIn tbOut : AVRational) (vidIdx outIdx total : Int)
    (htotal : total ≠ 0) (s : LoopState) (p : PacketIn)
    (hp : p.stream_index = vidIdx → p.decode ≠ none)
    (hob : s.outerBroke = false) (hf : s.faulted = false) :
    (process_packet tbIn tbOut vidIdx outIdx total s p).packetsRead = s.packetsRead + 1
    ∧ (process_packet tbIn tbOut vidIdx outIdx total s p).outerBroke = false
    ∧ (process_packet tbIn tbOut vidIdx outIdx total s p).faulted = false := by
  simp only [process_packet]
  split
  · next hguard =>
    rw [hob, hf] at hguard
    simp at hguard
  · split
    · next hstream =>
      split
      · next heq => exact absurd heq (hp hstream)
      · rename_i frames heq
        obtain ⟨g1, g2, g3⟩ := foldl_process_frame_const tbIn tbOut outIdx total frames
          { s with packetsRead := s.packetsRead + 1, innerBroke := false }
        have gf := foldl_process_frame_fault tbIn tbOut outIdx total htotal frames
          { s with packetsRead := s.packetsRead + 1, innerBroke := false }
        split
        · next hfault =>
          rw [gf] at hfault
          exact absurd (hf ▸ hfault) (by simp)
        · exact ⟨g1, by rw [g3]; exact hob, by rw [gf]; exact hf⟩
    · exact ⟨rfl, hob, hf⟩

theorem foldl_process_packet_nofail (tbIn tbOut : AVRational) (vidIdx outIdx total : Int)
    (htotal : total ≠ 0) (l : List PacketIn)
    (hl : ∀ p ∈ l, p.stream_index = vidIdx → p.decode ≠ none) :
    ∀ (s : LoopState), s.outerBroke = false → s.faulted = false →
    (l.foldl (process_packet tbIn tbOut vidIdx outIdx total) s).packetsRead
        = s.packetsRead + l.length
    ∧ (l.foldl (process_packet tbIn tbOut vidIdx outIdx total) s).outerBroke = false
    ∧ (l.foldl (process_packet tbIn tbOut vidIdx outIdx total) s).faulted = false := by
  induction l with
  | nil => intro s hob hf; exact ⟨rfl, hob, hf⟩
  | cons p ps ih =>
    intro s hob hf
    obtain ⟨g1, g2, g3⟩ := process_packet_nofail tbIn tbOut vidIdx outIdx total htotal s p
      (hl p (List.mem_cons_self _ _)) hob hf
    obtain ⟨k1, k2, k3⟩ := ih (fun q hq => hl q (List.mem_cons_of_mem _ hq)) _ g2 g3
    refine ⟨?_, k2, k3⟩
    rw [List.foldl_cons, k1, g1, List.length_cons]
    omega

theorem process_packet_decode_fail (tbIn tbOut : AVRational) (vidIdx outIdx total : Int)
    (s : LoopState) (p : PacketIn)
    (hp1 : p.stream_index = vidIdx) (hp2 : p.decode = none)
    (hob : s.outerBroke = false) (hf : s.faulted = false) :
    process_packet tbIn tbOut vidIdx outIdx total s p
      = { s with packetsRead := s.packetsRead + 1, outerBroke := true } := by
  simp [process_packet, hp1, hp2, hob, hf]

/-! ### Concrete sample inputs -/

def tbUnit : AVRational := ⟨1, 1⟩

def sampleFrame : Frame := ⟨0, 0, 0, fun _ => 0, 7⟩

/-- A video packet whose decode yields one frame; the encoder accepts the
frame and yields a packet. -/
def samplePacketOk : PacketIn := ⟨0, some [⟨sampleFrame, true, some ⟨3, true⟩⟩]⟩

/-- A video packet on which `avcodec_send_packet` fails. -/
def samplePacketDecodeFail : PacketIn := ⟨0, none⟩

/-- A video packet whose decode yields one frame on which
`avcodec_send_frame` fails. -/
def samplePacketEncodeFail : PacketIn := ⟨0, some [⟨sampleFrame, false, none⟩]⟩

def sampleFrame4x12 : Frame := ⟨4, 12, 12, fun _ => 7, 0⟩

def sampleFrame64 : Frame := ⟨64, 64, 192, fun _ => 0, 0⟩

def barDemoFrame : Frame :=
  { sampleFrame4x12 with data := applyWrites sampleFrame4x12.data (barWrites 12 2 2) }

/-! ### The claims -/

/-- C3 counterexample: the claim says a decode-submission failure on packet k
aborts only packet k's cycle and the loop reads packet k+1.  In the code the
`break` at line 142 exits the outer read loop: after a decode failure on
packet 0, only 1 packet is ever read and the counter stays 0, although the
second packet alone would have produced a frame. -/
theorem C3_counterexample_decode_break :
    (run_transcode tbUnit tbUnit 0 0 5 [samplePacketDecodeFail, samplePacketOk]).final.packetsRead = 1
    ∧ (run_transcode tbUnit tbUnit 0 0 5 [samplePacketDecodeFail, samplePacketOk]).final.frame_count = 0
    ∧ (run_transcode tbUnit tbUnit 0 0 5 [samplePacketOk]).final.frame_count = 1 := by
  decide

/-- C3 (amended): an encoder-submission failure aborts only the current
packet's drain cycle — the outer loop reads every packet; but a
decoder-submission failure on packet p aborts the entire read loop: the
processed-frame counter is unchanged from before p, p is the last packet
read, and no further packets are processed. -/
theorem C3_error_policy (tbIn tbOut : AVRational) (vidIdx outIdx total : Int)
    (packets pre post : List PacketIn) (p : PacketIn)
    (htotal : total ≠ 0)
    (hnofail : ∀ q ∈ packets, q.stream_index = vidIdx → q.decode ≠ none)
    (hprefail : ∀ q ∈ pre, q.stream_index = vidIdx → q.decode ≠ none)
    (hp1 : p.stream_index = vidIdx) (hp2 : p.decode = none) :
    ((run_transcode tbIn tbOut vidIdx outIdx total packets).final.packetsRead = packets.length
      ∧ (run_transcode tbIn tbOut vidIdx outIdx total packets).final.outerBroke = false)
    ∧ ((run_transcode tbIn tbOut vidIdx outIdx total (pre ++ p :: post)).final.frame_count
          = (run_transcode tbIn tbOut vidIdx outIdx total pre).final.frame_count
      ∧ (run_transcode tbIn tbOut vidIdx outIdx total (pre ++ p :: post)).final.packetsRead
          = (run_transcode tbIn tbOut vidIdx outIdx total pre).final.packetsRead + 1
      ∧ (run_transcode tbIn tbOut vidIdx outIdx total (pre ++ p :: post)).final.outerBroke = true) := by
  constructor
  · obtain ⟨h1, h2, h3⟩ := foldl_process_packet_nofail tbIn tbOut vidIdx outIdx total htotal
      packets hnofail init_state rfl rfl
    rw [run_transcode_final]
    exact ⟨by simpa [init_state] using h1, h2⟩
  · obtain ⟨h1, h2, h3⟩ := foldl_process_packet_nofail tbIn tbOut vidIdx outIdx total htotal
      pre hprefail init_state rfl rfl
    rw [run_transcode_final, run_transcode_final, List.foldl_append, List.foldl_cons]
    rw [process_packet_decode_fail tbIn tbOut vidIdx outIdx total _ p hp1 hp2 h2 h3]
    rw [foldl_process_packet_broke_id tbIn tbOut vidIdx outIdx total post _ rfl]
    exact ⟨rfl, rfl, rfl⟩

theorem C3_error_policy_witness :
    (run_transcode tbUnit tbUnit 0 0 5 [samplePacketEncodeFail]).final.packetsRead
        = [samplePacketEncodeFail].length
    ∧ (run_transcode tbUnit tbUnit 0 0 5
        ([] ++ samplePacketDecodeFail :: [samplePacketOk])).final.outerBroke = true := by
  have h := C3_error_policy tbUnit tbUnit 0 0 5 [samplePacketEncodeFail] [] [samplePacketOk]
      samplePacketDecodeFail (by decide)
      (by
        intro q hq hs
        simp only [List.mem_singleton] at hq
        subst hq
        simp [samplePacketEncodeFail])
      (by intro q hq; simp at hq)
      rfl rfl
  exact ⟨h.1.1, h.2.2.2⟩

/-- C4: across every run the processed-frame counter is incremented exactly
once per frame the decoder yields, always after the overlay call for that
frame — the successive overlay calls receive exactly the counter values
`0, 1, ..., frame_count - 1` — and the counter never decreases (in
particular it is never reset) as further packets are processed. -/
theorem C4_counter_discipline (tbIn tbOut : AVRational) (vidIdx outIdx total : Int)
    (packets : List PacketIn) (p : PacketIn) :
    ((run_transcode tbIn tbOut vidIdx outIdx total packets).final.overlayArgs.map Prod.fst
        = List.range (run_transcode tbIn tbOut vidIdx outIdx total packets).final.frame_count)
    ∧ (run_transcode tbIn tbOut vidIdx outIdx total packets).final.frame_count
        ≤ (run_transcode tbIn tbOut vidIdx outIdx total (packets ++ [p])).final.frame_count := by
  constructor
  · exact (run_transcode_trace tbIn tbOut vidIdx outIdx total packets).1
  · rw [run_transcode_final, run_transcode_final, List.foldl_append, List.foldl_cons,
      List.foldl_nil]
    exact process_packet_mono tbIn tbOut vidIdx outIdx total _ p

/-- C5 counterexample: the claim says every demuxed packet is released exactly
once in every run.  After a decode-submission failure the `break` at line 142
skips the `av_packet_unref` at line 169: one packet was read but the release
trace is empty — that packet leaks. -/
theorem C5_counterexample_packet_leak :
    (run_transcode tbUnit tbUnit 0 0 5 [samplePacketDecodeFail]).final.packetsRead = 1
    ∧ (run_transcode tbUnit tbUnit 0 0 5 [samplePacketDecodeFail]).final.inUnrefs = [] := by
  decide

/-- C5 (amended): in a run that does not crash, every demuxed packet is
released exactly once — except the packet whose decoder submission failed,
which is leaked because the `break` skips its release; every encoder-produced
packet is released exactly once, immediately after its interleaved write,
regardless of the write's success. -/
theorem C5_packet_release (tbIn tbOut : AVRational) (vidIdx outIdx total : Int)
    (packets : List PacketIn) (htotal : total ≠ 0) :
    (run_transcode tbIn tbOut vidIdx outIdx total packets).final.inUnrefs
      = List.range ((run_transcode tbIn tbOut vidIdx outIdx total packets).final.packetsRead
          - cond (run_transcode tbIn tbOut vidIdx outIdx total packets).final.outerBroke 1 0)
    ∧ (run_transcode tbIn tbOut vidIdx outIdx total packets).final.outUnrefs
      = (run_transcode tbIn tbOut vidIdx outIdx total packets).final.writes.length := by
  constructor
  · rw [run_transcode_final]
    exact (foldl_preserve _ UnrefInv
      (fun s p h => process_packet_unref tbIn tbOut vidIdx outIdx total htotal s p h)
      packets init_state ⟨rfl, rfl⟩).2
  · exact (run_transcode_trace tbIn tbOut vidIdx outIdx total packets).2.1

theorem C5_packet_release_witness :
    (run_transcode tbUnit tbUnit 0 0 5 [samplePacketOk]).final.inUnrefs
      = List.range ((run_transcode tbUnit tbUnit 0 0 5 [samplePacketOk]).final.packetsRead
          - cond (run_transcode tbUnit tbUnit 0 0 5 [samplePacketOk]).final.outerBroke 1 0)
    ∧ (run_transcode tbUnit tbUnit 0 0 5 [samplePacketOk]).final.outUnrefs
      = (run_transcode tbUnit tbUnit 0 0 5 [samplePacketOk]).final.writes.length :=
  C5_packet_release tbUnit tbUnit 0 0 5 [samplePacketOk] (by decide)

/-- C6 counterexample: with the input time base 1/120 and the encoder time
base 1/30 (strictly coarser), rescaling timestamp 2 to the encoder base and
back yields 4, two units away from the original — the round trip is not
within one unit for every pair of time bases. -/
theorem C6_roundtrip_counterexample :
    av_rescale_q 2 ⟨1, 120⟩ ⟨1, 30⟩ = 1
    ∧ av_rescale_q (av_rescale_q 2 ⟨1, 120⟩ ⟨1, 30⟩) ⟨1, 30⟩ ⟨1, 120⟩ = 4
    ∧ ¬ (av_rescale_q (av_rescale_q 2 ⟨1, 120⟩ ⟨1, 30⟩) ⟨1, 30⟩ ⟨1, 120⟩ - 2).natAbs ≤ 1 := by
  decide

/-- C6 (amended): `av_rescale_q` from time base `num1/den1` to `num2/den2`
computes the nearest integer to `a * num1 * den2 / (den1 * num2)` (ties away
from zero): twice the distance of `result * (den1*num2)` from `a * num1*den2`
is at most the denominator `den1*num2`.  The round trip to the second time
base and back reproduces the original within one unit whenever the
intermediate time base is at least as fine as the original
(`num2 * den1 ≤ num1 * den2`). -/
theorem C6_rescale_refined (a : Int) (tb1 tb2 : AVRational)
    (h1n : 0 < tb1.num) (h1d : 0 < tb1.den) (h2n : 0 < tb2.num) (h2d : 0 < tb2.den) :
    2 * |av_rescale_q a tb1 tb2 * (tb2.num * tb1.den) - a * (tb1.num * tb2.den)|
        ≤ tb2.num * tb1.den
    ∧ (tb2.num * tb1.den ≤ tb1.num * tb2.den →
        |av_rescale_q (av_rescale_q a tb1 tb2) tb2 tb1 - a| ≤ 1) := by
  constructor
  · exact av_rescale_rnd_near a _ _ (mul_nonneg h1n.le h2d.le) (mul_pos h2n h1d)
  · intro hfine
    exact av_rescale_rnd_roundtrip a _ _ (mul_pos h2n h1d) hfine

theorem C6_rescale_refined_witness :
    ((0 : Int) < 1 ∧ (0 : Int) < 30 ∧ (0 : Int) < 1 ∧ (0 : Int) < 90)
    ∧ 2 * |av_rescale_q 7 ⟨1, 30⟩ ⟨1, 90⟩ * ((1 : Int) * 30) - 7 * ((1 : Int) * 90)|
        ≤ (1 : Int) * 30
    ∧ ((1 : Int) * 30 ≤ 1 * 90 →
        |av_rescale_q (av_rescale_q 7 ⟨1, 30⟩ ⟨1, 90⟩) ⟨1, 90⟩ ⟨1, 30⟩ - 7| ≤ 1) := by
  have h := C6_rescale_refined 7 ⟨1, 30⟩ ⟨1, 90⟩ (by decide) (by decide) (by decide) (by decide)
  exact ⟨⟨by decide, by decide, by decide, by decide⟩, h.1, h.2⟩

/-- C7: every pts handed to `avcodec_send_frame` is the frame's decoded pts
rescaled from the input stream's time base to the encoder's time base — the
rescaling (line 149) happens before the submission (line 151). -/
theorem C7_pts_rescaled_before_encode (tbIn tbOut : AVRational) (vidIdx outIdx total : Int)
    (packets : List PacketIn) (pr : Int × Int)
    (hpr : pr ∈ (run_transcode tbIn tbOut vidIdx outIdx total packets).final.encSubmits) :
    pr.2 = av_rescale_q pr.1 tbIn encoder_time_base :=
  (run_transcode_trace tbIn tbOut vidIdx outIdx total packets).2.2.1 pr hpr

theorem C7_pts_rescaled_before_encode_witness :
    ((7, 210) : Int × Int) ∈ (run_transcode tbUnit tbUnit 0 0 5 [samplePacketOk]).final.encSubmits
    ∧ ((7, 210) : Int × Int).2 = av_rescale_q ((7, 210) : Int × Int).1 tbUnit encoder_time_base :=
  ⟨by decide,
   C7_pts_rescaled_before_encode tbUnit tbUnit 0 0 5 [samplePacketOk] (7, 210) (by decide)⟩

/-- C9: the encoder time base is the fixed constant 1/30, set unconditionally
(line 113); in every run, whatever the input and output time bases are, every
frame pts submitted to the encoder is rescaled into base 1/30 and every
written packet's timestamp is rescaled out of base 1/30. -/
theorem C9_encoder_time_base_fixed (tbIn tbOut : AVRational) (vidIdx outIdx total : Int)
    (packets : List PacketIn) :
    encoder_time_base = ⟨1, 30⟩
    ∧ (∀ pr ∈ (run_transcode tbIn tbOut vidIdx outIdx total packets).final.encSubmits,
        pr.2 = av_rescale_q pr.1 tbIn ⟨1, 30⟩)
    ∧ (∀ w ∈ (run_transcode tbIn tbOut vidIdx outIdx total packets).final.writes,
        w.1 = outIdx ∧ ∃ q, w.2.1 = av_rescale_q q ⟨1, 30⟩ tbOut) :=
  ⟨rfl, (run_transcode_trace tbIn tbOut vidIdx outIdx total packets).2.2.1,
    (run_transcode_trace tbIn tbOut vidIdx outIdx total packets).2.2.2⟩

theorem C9_encoder_time_base_fixed_witness :
    ((0, 0, true) : Int × Int × Bool)
        ∈ (run_transcode tbUnit tbUnit 0 0 5 [samplePacketOk]).final.writes
    ∧ ((0, 0, true) : Int × Int × Bool).1 = 0
    ∧ ∃ q, ((0, 0, true) : Int × Int × Bool).2.1 = av_rescale_q q ⟨1, 30⟩ tbUnit := by
  have h := (C9_encoder_time_base_fixed tbUnit tbUnit 0 0 5 [samplePacketOk]).2.2
    (0, 0, true) (by decide)
  exact ⟨by decide, h.1, h.2⟩

/-- C10 counterexample: the claim says that once the header is written the
run always exits 0 and writes the trailer.  With `total_frames = 0` (common
when `nb_frames` metadata is absent) the first decoded frame makes
`add_progress_bar` divide by zero: the process crashes before the trailer is
written and does not exit 0. -/
theorem C10_counterexample_crash :
    (run_transcode tbUnit tbUnit 0 0 0 [samplePacketOk]).trailerWritten = false
    ∧ (run_transcode tbUnit tbUnit 0 0 0 [samplePacketOk]).exitCode = none := by
  decide

/-- C10 (amended): provided the overlay's division by zero is not triggered
(nonzero total-frame metadata), every run that reaches the loop writes the
trailer and exits 0, regardless of decode or encode submission failures
during the loop. -/
theorem C10_trailer_and_exit (tbIn tbOut : AVRational) (vidIdx outIdx total : Int)
    (packets : List PacketIn) (htotal : total ≠ 0) :
    (run_transcode tbIn tbOut vidIdx outIdx total packets).trailerWritten = true
    ∧ (run_transcode tbIn tbOut vidIdx outIdx total packets).exitCode = some 0 := by
  have hfault : (packets.foldl (process_packet tbIn tbOut vidIdx outIdx total)
      init_state).faulted = false :=
    foldl_preserve _ (fun s => s.faulted = false)
      (fun s p h => (process_packet_fault tbIn tbOut vidIdx outIdx total htotal s p).trans h)
      packets init_state rfl
  simp only [run_transcode]
  rw [hfault]
  exact ⟨rfl, rfl⟩

theorem C10_trailer_and_exit_witness :
    (run_transcode tbUnit tbUnit 0 0 5 [samplePacketDecodeFail]).trailerWritten = true
    ∧ (run_transcode tbUnit tbUnit 0 0 5 [samplePacketDecodeFail]).exitCode = some 0 :=
  C10_trailer_and_exit tbUnit tbUnit 0 0 5 [samplePacketDecodeFail] (by decide)

/-- C2 (code is wrong, spec is the intent): the overlay renderer is not safe
for all inputs.  With `total_frames = 0` the bar-width division is division
by zero — undefined behavior, no guarded zero-width bar.  And with
`current_count > total_count` the computed bar width exceeds the frame width
and is not clamped: at a 64×64 frame with stride 192, `frame_number = 5`,
`total_frames = 4`, the loop emits a write at flat offset 12333, beyond the
end of the 64·192-byte buffer — an out-of-bounds write. -/
theorem C2_overlay_unsafe :
    add_progress_bar sampleFrame64 3 0 = none
    ∧ add_progress_bar sampleFrame64 5 4
        = some { sampleFrame64 with
            data := applyWrites sampleFrame64.data (barWrites 192 54 80) }
    ∧ ((12333 : Int), (255 : Nat)) ∈ barWrites 192 54 80
    ∧ sampleFrame64.height * sampleFrame64.linesize ≤ 12333 := by
  refine ⟨rfl, rfl, ?_, by decide⟩
  have h9 : (9 : Nat) ∈ List.range 10 := by decide
  have h79 : (79 : Nat) ∈ List.range 80 := by decide
  refine List.mem_flatMap.2 ⟨9, h9, List.mem_flatMap.2 ⟨79, h79, ?_⟩⟩
  have haddr : ((54 : Int) + ((9 : Nat) : Int)) * 192 + 3 * ((79 : Nat) : Int) = 12333 := by
    norm_num
  rw [← haddr]
  exact List.mem_cons_self _ _

/-- C1: for `0 ≤ n ≤ total`, `total > 0`, on a frame with `height ≥ 10` and
stride at least `3 * width`, the overlay draws a bar of width exactly
`⌊width * n / total⌋` pixels (the C bar width satisfies the floor
characterization, is full width at `n = total` and zero at `n = 0`): every
pixel `(row, col)` with `row` in the bottom 10 rows and `col` below the bar
width is set to the solid color 255/0/0, and every byte at any other address
is unchanged. -/
theorem C1_bar_geometry (f : Frame) (n t : Int)
    (hn : 0 ≤ n) (hnt : n ≤ t) (ht : 0 < t)
    (hw : 0 ≤ f.width) (hh : 10 ≤ f.height) (hL3 : 3 * f.width ≤ f.linesize)
    (g : Frame) (hg : add_progress_bar f n t = some g) :
    (Int.tdiv (f.width * n) t * t ≤ f.width * n
      ∧ f.width * n < (Int.tdiv (f.width * n) t + 1) * t
      ∧ (n = t → Int.tdiv (f.width * n) t = f.width)
      ∧ (n = 0 → Int.tdiv (f.width * n) t = 0))
    ∧ (∀ k j : Nat, k < 10 → (j : Int) < Int.tdiv (f.width * n) t →
        g.data ((f.height - 10 + (k : Int)) * f.linesize + 3 * (j : Int)) = 255
        ∧ g.data ((f.height - 10 + (k : Int)) * f.linesize + 3 * (j : Int) + 1) = 0
        ∧ g.data ((f.height - 10 + (k : Int)) * f.linesize + 3 * (j : Int) + 2) = 0)
    ∧ (∀ a : Int,
        (∀ k j c : Nat, k < 10 → (j : Int) < Int.tdiv (f.width * n) t → c < 3 →
          a ≠ (f.height - 10 + (k : Int)) * f.linesize + 3 * (j : Int) + (c : Int)) →
        g.data a = f.data a) := by
  have hwn : 0 ≤ f.width * n := mul_nonneg hw hn
  have hdiv : Int.tdiv (f.width * n) t = f.width * n / t := Int.tdiv_eq_ediv hwn ht.le
  have hbw0 : 0 ≤ Int.tdiv (f.width * n) t := by
    rw [hdiv]
    exact Int.ediv_nonneg hwn ht.le
  have hbww : Int.tdiv (f.width * n) t ≤ f.width := by
    rw [hdiv]
    calc f.width * n / t ≤ f.width * t / t :=
          Int.ediv_le_ediv ht (mul_le_mul_of_nonneg_left hnt hw)
      _ = f.width := Int.mul_ediv_cancel _ ht.ne'
  have hcast : ((Int.toNat (Int.tdiv (f.width * n) t) : Int)) = Int.tdiv (f.width * n) t :=
    Int.toNat_of_nonneg hbw0
  have h3L : 3 * ((Int.toNat (Int.tdiv (f.width * n) t) : Int)) ≤ f.linesize := by
    rw [hcast]
    linarith
  simp only [add_progress_bar] at hg
  rw [if_neg ht.ne'] at hg
  simp only [Option.some.injEq] at hg
  subst hg
  refine ⟨⟨?_, ?_, ?_, ?_⟩, ?_, ?_⟩
  · rw [hdiv]
    exact Int.ediv_mul_le _ ht.ne'
  · rw [hdiv]
    exact Int.lt_ediv_add_one_mul_self _ ht
  · intro hnt'
    subst hnt'
    rw [hdiv]
    exact Int.mul_ediv_cancel _ ht.ne'
  · intro h0
    subst h0
    rw [hdiv]
    simp
  · intro k j hk hj
    have hjN : j < Int.toNat (Int.tdiv (f.width * n) t) := by omega
    have h255 := barWrites_value f.linesize (f.height - 10) _ h3L f.data k j 0 hk hjN
      (by norm_num)
    have h01 := barWrites_value f.linesize (f.height - 10) _ h3L f.data k j 1 hk hjN
      (by norm_num)
    have h02 := barWrites_value f.linesize (f.height - 10) _ h3L f.data k j 2 hk hjN
      (by norm_num)
    refine ⟨?_, ?_, ?_⟩
    · simpa using h255
    · simpa using h01
    · simpa using h02
  · intro a ha
    apply applyWrites_eq_of_not_mem
    intro w hw'
    rcases mem_barWrites_iff.1 hw' with ⟨k2, hk2, j2, hj2, hcase⟩
    have hj2I : (j2 : Int) < Int.tdiv (f.width * n) t := by omega
    rcases hcase with h | h | h <;> rw [h]
    · exact fun heq => ha k2 j2 0 hk2 hj2I (by norm_num) (by rw [← heq]; simp)
    · exact fun heq => ha k2 j2 1 hk2 hj2I (by norm_num) (by rw [← heq]; simp)
    · exact fun heq => ha k2 j2 2 hk2 hj2I (by norm_num) (by rw [← heq]; simp)

theorem C1_bar_geometry_witness :
    ((0 : Int) ≤ 1 ∧ (1 : Int) ≤ 2 ∧ (0 : Int) < 2 ∧ (0 : Int) ≤ sampleFrame4x12.width
      ∧ (10 : Int) ≤ sampleFrame4x12.height
      ∧ 3 * sampleFrame4x12.width ≤ sampleFrame4x12.linesize
      ∧ add_progress_bar sampleFrame4x12 1 2 = some barDemoFrame
      ∧ ((0 : Nat) : Int) < Int.tdiv (sampleFrame4x12.width * 1) 2)
    ∧ barDemoFrame.data ((sampleFrame4x12.height - 10 + ((0 : Nat) : Int)) * sampleFrame4x12.linesize
        + 3 * ((0 : Nat) : Int)) = 255 := by
  have h := C1_bar_geometry sampleFrame4x12 1 2 (by decide) (by decide) (by decide) (by decide)
      (by decide) (by decide) barDemoFrame rfl
  exact ⟨⟨by decide, by decide, by decide, by decide, by decide, by decide, rfl, by decide⟩,
    (h.2.1 0 0 (by decide) (by decide)).1⟩

/-- C8: the overlay renderer's side-effect footprint stays inside the bottom
10 rows: whenever it runs (nonzero `total_frames`) on a frame with a
nonnegative stride, every byte at an address below the start of the bottom 10
rows is left unchanged. -/
theorem C8_side_effect_footprint (f : Frame) (n t : Int) (ht : t ≠ 0) (hL : 0 ≤ f.linesize)
    (g : Frame) (hg : add_progress_bar f n t = some g)
    (a : Int) (ha : a < (f.height - 10) * f.linesize) :
    g.data a = f.data a := by
  simp only [add_progress_bar] at hg
  rw [if_neg ht] at hg
  simp only [Option.some.injEq] at hg
  subst hg
  exact applyWrites_barWrites_lower hL f.data a ha

theorem C8_side_effect_footprint_witness :
    ((2 : Int) ≠ 0 ∧ (0 : Int) ≤ sampleFrame4x12.linesize
      ∧ add_progress_bar sampleFrame4x12 1 2 = some barDemoFrame
      ∧ (5 : Int) < (sampleFrame4x12.height - 10) * sampleFrame4x12.linesize)
    ∧ barDemoFrame.data 5 = sampleFrame4x12.data 5 :=
  ⟨⟨by decide, by decide, rfl, by decide⟩,
   C8_side_effect_footprint sampleFrame4x12 1 2 (by decide) (by decide) barDemoFrame rfl 5
     (by decide)⟩
